import Mathlib

/-!
Verification development for the `jbgraph3` repository
(`src/jbgraph2.py`: `Network`, `RSTree`; `src/jbheap.py`: `Heap`,
`HeapOfTuples`).

Python dictionaries are embedded as insertion-ordered association lists:
assignment `d[k] = v` updates the first binding of `k` in place, or appends
a new binding at the end; `del d[k]` removes the first binding; iteration
follows the list order, matching CPython's insertion-ordered dicts.
Node identifiers are embedded as `Nat`.
-/

/-- A Python dict with `Nat` keys: insertion-ordered association list. -/
abbrev Dict (β : Type) := List (Nat × β)

/-- Dict lookup `d[k]` (as an `Option`; `none` is Python's `KeyError`). -/
def dlookup {β : Type} (k : Nat) : Dict β → Option β
  | [] => none
  | (k₁, v) :: t => if k₁ = k then some v else dlookup k t

/-- Dict assignment `d[k] = v`: update in place if present, else append. -/
def dset {β : Type} (d : Dict β) (k : Nat) (v : β) : Dict β :=
  match d with
  | [] => [(k, v)]
  | (k₁, v₁) :: t => if k₁ = k then (k, v) :: t else (k₁, v₁) :: dset t k v

/-- Dict deletion `del d[k]`: removes the first binding of `k`
(callers check presence first; Python raises `KeyError` when absent). -/
def ddel {β : Type} (d : Dict β) (k : Nat) : Dict β :=
  match d with
  | [] => []
  | (k₁, v₁) :: t => if k₁ = k then t else (k₁, v₁) :: ddel t k

/-- The key list of a dict, in iteration order. -/
def dkeys {β : Type} (d : Dict β) : List Nat := d.map Prod.fst

/-- Python membership test `k in d`. -/
def dmem {β : Type} (k : Nat) (d : Dict β) : Bool := (dlookup k d).isSome


/-! ### Dict lemmas -/

section DictLemmas

variable {β : Type}


theorem dlookup_append_of_some : ∀ (d₁ d₂ : Dict β) (k : Nat) (v : β),
    dlookup k d₁ = some v → dlookup k (d₁ ++ d₂) = some v := by
  intro d₁
  induction d₁ with
  | nil => intro d₂ k v h; simp [dlookup] at h
  | cons p t ih =>
    intro d₂ k v h
    obtain ⟨k₁, v₁⟩ := p
    by_cases hk : k₁ = k
    · simp only [dlookup, if_pos hk] at h
      simp only [List.cons_append, dlookup, if_pos hk]
      exact h
    · simp only [dlookup, if_neg hk] at h
      simp only [List.cons_append, dlookup, if_neg hk]
      exact ih d₂ k v h

theorem dlookup_append_of_none : ∀ (d₁ d₂ : Dict β) (k : Nat),
    dlookup k d₁ = none → dlookup k (d₁ ++ d₂) = dlookup k d₂ := by
  intro d₁
  induction d₁ with
  | nil => intro d₂ k _; simp
  | cons p t ih =>
    intro d₂ k h
    obtain ⟨k₁, v₁⟩ := p
    by_cases hk : k₁ = k
    · simp only [dlookup, if_pos hk] at h
      exact absurd h (by simp)
    · simp only [dlookup, if_neg hk] at h
      simp only [List.cons_append, dlookup, if_neg hk]
      exact ih d₂ k h

theorem dlookup_dset_self : ∀ (d : Dict β) (k : Nat) (v : β),
    dlookup k (dset d k v) = some v := by
  intro d
  induction d with
  | nil => intro k v; simp [dset, dlookup]
  | cons p t ih =>
    intro k v
    obtain ⟨k₁, v₁⟩ := p
    by_cases hk : k₁ = k
    · simp [dset, if_pos hk, dlookup]
    · simp only [dset, if_neg hk, dlookup, if_neg hk]
      exact ih k v

theorem dlookup_dset_ne : ∀ (d : Dict β) (k : Nat) (v : β) (q : Nat), q ≠ k →
    dlookup q (dset d k v) = dlookup q d := by
  intro d
  induction d with
  | nil =>
    intro k v q hq
    simp only [dset, dlookup]
    rw [if_neg (Ne.symm hq)]
  | cons p t ih =>
    intro k v q hq
    obtain ⟨k₁, v₁⟩ := p
    by_cases hk : k₁ = k
    · subst hk
      simp only [dset, if_pos rfl, dlookup]
      rw [if_neg (Ne.symm hq), if_neg (Ne.symm hq)]
    · simp only [dset, if_neg hk, dlookup]
      by_cases hq1 : k₁ = q
      · rw [if_pos hq1, if_pos hq1]
      · rw [if_neg hq1, if_neg hq1]
        exact ih k v q hq

theorem dlookup_ddel_ne : ∀ (d : Dict β) (k q : Nat), q ≠ k →
    dlookup q (ddel d k) = dlookup q d := by
  intro d
  induction d with
  | nil => intro k q _; simp [ddel]
  | cons p t ih =>
    intro k q hq
    obtain ⟨k₁, v₁⟩ := p
    by_cases hk : k₁ = k
    · subst hk
      have hd : ddel ((k₁, v₁) :: t) k₁ = t := by simp [ddel]
      rw [hd]
      simp only [dlookup]
      rw [if_neg (Ne.symm hq)]
    · simp only [ddel, if_neg hk, dlookup]
      by_cases hq1 : k₁ = q
      · rw [if_pos hq1, if_pos hq1]
      · rw [if_neg hq1, if_neg hq1]
        exact ih k q hq

theorem mem_dkeys : ∀ (d : Dict β) (k : Nat), k ∈ dkeys d ↔ (dlookup k d).isSome := by
  intro d
  induction d with
  | nil => intro k; simp [dkeys, dlookup]
  | cons p t ih =>
    intro k
    obtain ⟨k₁, v₁⟩ := p
    by_cases hk : k₁ = k
    · subst hk
      simp [dkeys, dlookup]
    · simp only [dkeys, List.map_cons, List.mem_cons, dlookup, if_neg hk]
      constructor
      · rintro (h | h)
        · exact absurd h.symm hk
        · exact (ih k).mp h
      · intro h
        exact Or.inr ((ih k).mpr h)

theorem dlookup_ddel_self : ∀ (d : Dict β) (k : Nat), (dkeys d).Nodup →
    dlookup k (ddel d k) = none := by
  intro d
  induction d with
  | nil => intro k _; simp [ddel, dlookup]
  | cons p t ih =>
    intro k hnd
    obtain ⟨k₁, v₁⟩ := p
    simp only [dkeys, List.map_cons, List.nodup_cons] at hnd
    by_cases hk : k₁ = k
    · subst hk
      have hd : ddel ((k₁, v₁) :: t) k₁ = t := by simp [ddel]
      rw [hd]
      cases hl : dlookup k₁ t with
      | none => rfl
      | some v =>
        exact absurd ((mem_dkeys t k₁).mpr (by simp [hl])) hnd.1
    · simp only [ddel, if_neg hk, dlookup, if_neg hk]
      exact ih k hnd.2

theorem dlookup_mem : ∀ (d : Dict β) (k : Nat) (v : β), dlookup k d = some v → (k, v) ∈ d := by
  intro d
  induction d with
  | nil => intro k v h; simp [dlookup] at h
  | cons p t ih =>
    intro k v h
    obtain ⟨k₁, v₁⟩ := p
    by_cases hk : k₁ = k
    · subst hk
      simp only [dlookup, if_pos rfl] at h
      obtain rfl : v₁ = v := Option.some.inj h
      simp
    · simp only [dlookup, if_neg hk] at h
      exact List.mem_cons_of_mem _ (ih k v h)

theorem dkeys_dset_mem : ∀ (d : Dict β) (k : Nat) (v : β), k ∈ dkeys d →
    dkeys (dset d k v) = dkeys d := by
  intro d
  induction d with
  | nil => intro k v h; simp [dkeys] at h
  | cons p t ih =>
    intro k v h
    obtain ⟨k₁, v₁⟩ := p
    by_cases hk : k₁ = k
    · subst hk
      simp [dset, dkeys]
    · simp only [dkeys, List.map_cons, List.mem_cons] at h
      rcases h with h | h
      · exact absurd h.symm hk
      · simp only [dset, if_neg hk, dkeys, List.map_cons]
        have := ih k v h
        simp only [dkeys] at this
        rw [this]

theorem dkeys_dset_not_mem : ∀ (d : Dict β) (k : Nat) (v : β), ¬ k ∈ dkeys d →
    dkeys (dset d k v) = dkeys d ++ [k] := by
  intro d
  induction d with
  | nil => intro k v _; simp [dset, dkeys]
  | cons p t ih =>
    intro k v h
    obtain ⟨k₁, v₁⟩ := p
    simp only [dkeys, List.map_cons, List.mem_cons] at h
    push_neg at h
    have hk : k₁ ≠ k := fun he => h.1 he.symm
    simp only [dset, if_neg hk, dkeys, List.map_cons, List.cons_append]
    have := ih k v h.2
    simp only [dkeys] at this
    rw [this]

theorem dkeys_ddel_sublist : ∀ (d : Dict β) (k : Nat),
    (dkeys (ddel d k)).Sublist (dkeys d) := by
  intro d
  induction d with
  | nil => intro k; simp [ddel]
  | cons p t ih =>
    intro k
    obtain ⟨k₁, v₁⟩ := p
    by_cases hk : k₁ = k
    · simp only [ddel, if_pos hk, dkeys, List.map_cons]
      exact List.sublist_cons_of_sublist _ (List.Sublist.refl _)
    · simp only [ddel, if_neg hk, dkeys, List.map_cons]
      exact List.Sublist.cons₂ _ (ih k)

end DictLemmas

/-- Errors the Python code can raise: `KeyError` (the spec's `NotFound`),
plus a marker for exhaustion of the traversal fuel (proved unreachable). -/
inductive Err : Type
  | notFound : Err
  | noFuel : Err
deriving DecidableEq, Repr

/-! ## `Network` (src/jbgraph2.py) -/

/-- The `_net` state of a `Network`: node ↦ (neighbor ↦ weight). -/
abbrev Net := Dict (Dict Nat)

namespace Network

/-- `Network.add_node`: create the node with an empty adjacency dict if it
is absent.  The Python method falls off the end, returning `None`; the
returned `Option Int` is that Python return value. -/
def add_node (net : Net) (node : Nat) : Option Int × Net :=
  (none, if dmem node net then net else net ++ [(node, [])])

/-- Truthiness of a Python value of shape `None`-or-`int`:
`None` and `0` are falsy. -/
def truthy : Option Int → Bool
  | none => false
  | some n => n != 0

/-- Set `net[node1][node2] = w`; `node1` is present at every call site
(the fallback returns the dict unchanged where Python would raise). -/
def setWeight (net : Net) (node1 node2 : Nat) (w : Nat) : Net :=
  match dlookup node1 net with
  | some adjd => dset net node1 (dset adjd node2 w)
  | none => net

/-- `Network.add_link`, translated statement by statement:

    if not self.add_node(node1):
        return -1
    if not self.add_node(node2):
        return -1
    self._net[node1][node2] = 1
    self._net[node2][node1] = 1

`add_node` returns `None`, which is falsy, so the first guard always
fires: only `node1` is ever created and the link entries are never
written. -/
def add_link (net : Net) (node1 node2 : Nat) : Option Int × Net :=
  let r1 := add_node net node1
  if !truthy r1.1 then (some (-1), r1.2)
  else
    let r2 := add_node r1.2 node2
    if !truthy r2.1 then (some (-1), r2.2)
    else
      let net3 := setWeight r2.2 node1 node2 1
      let net4 := setWeight net3 node2 node1 1
      (none, net4)

/-- `Network.del_link`: `del self._net[node1][node2]` then
`del self._net[node2][node1]`; a missing node or entry is a `KeyError`. -/
def del_link (net : Net) (node1 node2 : Nat) : Except Err Net :=
  match dlookup node1 net with
  | none => .error .notFound
  | some m1 =>
    if dmem node2 m1 then
      let net1 := dset net node1 (ddel m1 node2)
      match dlookup node2 net1 with
      | none => .error .notFound
      | some m2 =>
        if dmem node1 m2 then .ok (dset net1 node2 (ddel m2 node1))
        else .error .notFound
    else .error .notFound

/-- `Network.find_neighbors`: the key list of `self._net[node]`;
`KeyError` if the node is absent. -/
def find_neighbors (net : Net) (node : Nat) : Except Err (List Nat) :=
  match dlookup node net with
  | some adjd => .ok (dkeys adjd)
  | none => .error .notFound

/-- Sum of all adjacency weights over all nodes
(`sum([sum(self._net[n].values()) for n in self._net])`). -/
def weights_sum (net : Net) : Nat :=
  (net.map (fun p => (p.2.map Prod.snd).sum)).sum

/-- `Network.link_count`: `int(weights_sum / 2)`.  The Python float
division followed by `int(...)` truncates toward zero; on the
nonnegative integer `weights_sum` this is floor division. -/
def link_count (net : Net) : Nat := weights_sum net / 2

/-- `Network.node_count`: `len(self._net)`. -/
def node_count (net : Net) : Nat := net.length

/-- `Network.nodes`: the node list in iteration order. -/
def nodes (net : Net) : List Nat := dkeys net

/-- The weight stored for the ordered pair `(a, b)`:
`net[a][b]` as an `Option`. -/
def weight (net : Net) (a b : Nat) : Option Nat :=
  (dlookup a net).bind (dlookup b)

end Network

/-- C1 evaluation: on an empty `Network`, `add_link(0, 1)` returns `-1`
having created only node `0`; node `1` does not exist and neither
adjacency entry is written. -/
theorem add_link_bug_eval :
    Network.add_link [] 0 1 = (some (-1), [(0, [])]) ∧
    dlookup 1 (Network.add_link [] 0 1).2 = none ∧
    Network.weight (Network.add_link [] 0 1).2 0 1 = none ∧
    Network.weight (Network.add_link [] 0 1).2 1 0 = none := by
  decide

/-- C2 evaluation: after one `add_link(0, 1)` on an empty `Network`
(`k = 1` distinct link requested), `link_count` is `0`, not `1`. -/
theorem link_count_bug_eval :
    Network.link_count (Network.add_link [] 0 1).2 = 0 := by
  decide

/-! ## `Heap` (src/jbheap.py)

The `_heap` list is embedded directly as a `List α`; the overridable
`is_less_than` method is a `lt : α → α → Bool` parameter (the base class
uses `el1 < el2`, `HeapOfTuples` compares the component at `i_val`). -/

namespace Heap

variable {α : Type}

/-- Python parallel assignment `L[i], L[j] = L[j], L[i]`
(well-defined only when both indices are in range, as at every call site). -/
def swap (L : List α) (i j : Nat) : List α :=
  match L.get? i, L.get? j with
  | some a, some b => (L.set i b).set j a
  | _, _ => L

/-- `Heap.parent`: `(i-1)//2`.  On `i = 0` Python gives `-1`; the callers
guard with `i > 0`, and `Nat` subtraction gives `0` there, unused. -/
def parent (i : Nat) : Nat := (i - 1) / 2

/-- `Heap.left_child`: `2*i+1`. -/
def left_child (i : Nat) : Nat := 2 * i + 1

/-- `Heap.right_child`: `2*i+2`. -/
def right_child (i : Nat) : Nat := 2 * i + 2

theorem swap_length (L : List α) (i j : Nat) : (swap L i j).length = L.length := by
  unfold swap
  cases hi : L.get? i <;> cases hj : L.get? j <;> simp

/-- `Heap.up_heapify`: while `i > 0`, swap upward while the element is
less than its parent; an `IndexError` (out-of-range read) breaks. -/
def up_heapify (lt : α → α → Bool) (L : List α) (i : Nat) : List α :=
  if 0 < i then
    match L.get? i, L.get? (parent i) with
    | some a, some b =>
      if lt a b then up_heapify lt (swap L i (parent i)) (parent i) else L
    | _, _ => L
  else L
termination_by i
decreasing_by simp only [parent]; omega

/-- `Heap.down_heapify`, translated with its exact loop bound and guards:

    while i < len(L) - 1:
        try:
            if is_less_than(L[left_child(i)], L[i]): swap; i = left_child(i)
            elif i < len(L) - 2 and is_less_than(L[right_child(i)], L[i]):
                swap; i = right_child(i)
            else: break
        except IndexError: break

Note it swaps with the left child whenever that child is smaller, without
comparing the two children, and guards the right child by `i < len(L)-2`
rather than `right_child(i) < len(L)`. -/
def down_heapify (lt : α → α → Bool) (L : List α) (i : Nat) : List α :=
  if i < L.length - 1 then
    match L.get? (left_child i), L.get? i with
    | some lc, some cur =>
      if lt lc cur then down_heapify lt (swap L i (left_child i)) (left_child i)
      else if i < L.length - 2 then
        match L.get? (right_child i), L.get? i with
        | some rc, some cur₂ =>
          if lt rc cur₂ then down_heapify lt (swap L i (right_child i)) (right_child i)
          else L
        | _, _ => L
      else L
    | _, _ => L
  else L
termination_by L.length - i
decreasing_by
  all_goals simp only [swap_length, left_child, right_child] at *
  all_goals omega

/-- `Heap.insert`: append, then repair upward from the last position. -/
def insert (lt : α → α → Bool) (L : List α) (element : α) : List α :=
  up_heapify lt (L ++ [element]) ((L ++ [element]).length - 1)

/-- `Heap.pop`: the three-way branch of the source (`len == 1`,
`len == 0`, general case `val = L[0]; L[0] = L.pop(); down_heapify(0)`). -/
def pop (lt : α → α → Bool) (L : List α) : Option α × List α :=
  if L.length = 1 then (L.get? 0, [])
  else if L.length = 0 then (none, L)
  else
    match L.get? 0, L.getLast? with
    | some val, some last =>
      (some val, down_heapify lt (L.dropLast.set 0 last) 0)
    | _, _ => (none, L)

/-- `Heap.__init__(elements, is_heap)`: store as-is when the caller
asserts heap order, else insert the elements one at a time. -/
def ofElements (lt : α → α → Bool) (elements : List α) (is_heap : Bool) : List α :=
  if is_heap then elements else elements.foldl (insert lt) []

/-- Pop repeatedly (at most `fuel` times), collecting returned values
until the sentinel `None` appears. -/
def popAll (lt : α → α → Bool) : Nat → List α → List α
  | 0, _ => []
  | fuel + 1, L =>
    match pop lt L with
    | (some v, L₂) => v :: popAll lt fuel L₂
    | (none, _) => []

/-- The heap invariant as a boolean check: no element is less than its
parent under the active ordering relation. -/
def heapOk (lt : α → α → Bool) (L : List α) : Bool :=
  (List.range L.length).all fun i =>
    i == 0 ||
      (match L.get? i, L.get? (parent i) with
       | some a, some b => !(lt a b)
       | _, _ => true)

end Heap

/-- The base class ordering `Heap.is_less_than`: `el1 < el2` on integers. -/
def ltNat (a b : Nat) : Bool := a < b

/-- `HeapOfTuples.is_less_than` with `i_val = 0` on pairs:
`el1[0] < el2[0]`. -/
def ltTuple0 (a b : Nat × Char) : Bool := a.1 < b.1

/-- C3 evaluation: building a `Heap` by inserting `0, 2, 1, 3` and popping
until empty returns `0, 2, 1, 3` — not ascending; the second pop returns
`2` while `1` is still stored, so `pop` does not return the minimum. -/
theorem heap_pop_order_bug_eval :
    Heap.ofElements ltNat [0, 2, 1, 3] false = [0, 2, 1, 3] ∧
    Heap.popAll ltNat 4 [0, 2, 1, 3] = [0, 2, 1, 3] ∧
    (Heap.pop ltNat [0, 2, 1, 3]).1 = some 0 ∧
    (Heap.pop ltNat (Heap.pop ltNat [0, 2, 1, 3]).2).1 = some 2 ∧
    1 ∈ (Heap.pop ltNat [0, 2, 1, 3]).2 ∧
    ¬ List.Chain' (fun a b => a ≤ b) (Heap.popAll ltNat 4 [0, 2, 1, 3]) := by
  simp [Heap.ofElements, Heap.insert, Heap.up_heapify, Heap.pop, Heap.down_heapify,
    Heap.popAll, Heap.swap, Heap.parent, Heap.left_child, Heap.right_child, ltNat]

/-- C4 evaluation: after inserting `0, 2, 1, 3` and popping once, the
stored sequence is `[2, 3, 1]`, which violates the heap invariant
(parent `2` at index 0 is greater than its child `1` at index 2). -/
theorem heap_invariant_bug_eval :
    (Heap.pop ltNat (Heap.ofElements ltNat [0, 2, 1, 3] false)).2 = [2, 3, 1] ∧
    Heap.heapOk ltNat [2, 3, 1] = false := by
  constructor
  · simp [Heap.ofElements, Heap.insert, Heap.up_heapify, Heap.pop, Heap.down_heapify,
      Heap.swap, Heap.parent, Heap.left_child, Heap.right_child, ltNat]
  · decide

/-- C8: inserting `(3,'x'), (1,'y'), (2,'z')` into an empty `HeapOfTuples`
keyed on position 0 and popping twice yields `(1,'y')` then `(2,'z')`. -/
theorem heap_of_tuples_pop_eval :
    (Heap.pop ltTuple0 (Heap.ofElements ltTuple0 [(3, 'x'), (1, 'y'), (2, 'z')] false)).1 =
      some (1, 'y') ∧
    (Heap.pop ltTuple0
        (Heap.pop ltTuple0 (Heap.ofElements ltTuple0 [(3, 'x'), (1, 'y'), (2, 'z')] false)).2).1 =
      some (2, 'z') := by
  simp [Heap.ofElements, Heap.insert, Heap.up_heapify, Heap.pop, Heap.down_heapify,
    Heap.swap, Heap.parent, Heap.left_child, Heap.right_child, ltTuple0]

/-! ## Multiset preservation for the heap (C10)

`up_heapify` and `down_heapify` only ever swap two in-range positions, so
they preserve the multiset of stored elements; `insert` adds exactly its
argument and `pop` removes exactly the returned value. -/

namespace Heap

variable {α : Type}

theorem set_multiset : ∀ (L : List α) (i : Nat) (a b : α), L.get? i = some a →
    ((L.set i b : List α) : Multiset α) + {a} = (L : Multiset α) + {b} := by
  intro L
  induction L with
  | nil => intro i a b h; simp at h
  | cons x t ih =>
    intro i a b h
    cases i with
    | zero =>
      obtain rfl : x = a := by simpa using h
      simp only [List.set, ← Multiset.cons_coe, ← Multiset.singleton_add]
      abel
    | succ i =>
      simp only [List.get?] at h
      simp only [List.set]
      rw [← Multiset.cons_coe, ← Multiset.cons_coe]
      rw [Multiset.cons_add, Multiset.cons_add]
      rw [ih i a b h]

theorem swap_multiset (L : List α) (i j : Nat) :
    ((swap L i j : List α) : Multiset α) = ↑L := by
  unfold swap
  cases hi : L.get? i with
  | none => simp
  | some a =>
    cases hj : L.get? j with
    | none => simp
    | some b =>
      simp only
      have hjlen : j < L.length := by
        obtain ⟨h, _⟩ := List.get?_eq_some.mp hj
        exact h
      have hb2 : (L.set i b).get? j = some b := by
        by_cases hij : i = j
        · subst hij
          rw [List.get?_set_eq_of_lt _ hjlen]
        · rw [List.get?_set_ne _ _ hij, hj]
      have e1 := set_multiset (L.set i b) j b a hb2
      have e2 := set_multiset L i a b hi
      exact add_right_cancel (e1.trans e2)

theorem up_heapify_multiset (lt : α → α → Bool) : ∀ (L : List α) (i : Nat),
    ((up_heapify lt L i : List α) : Multiset α) = ↑L := by
  refine up_heapify.induct lt
    (fun L i => ((up_heapify lt L i : List α) : Multiset α) = ↑L) ?_ ?_ ?_ ?_
  · intro L i hpos a b hb ha hlt ih
    rw [up_heapify]
    simp only [if_pos hpos, ha, hb, if_pos hlt]
    rw [ih, swap_multiset]
  · intro L i hpos a b hb ha hlt
    rw [up_heapify]
    simp only [if_pos hpos, ha, hb, if_neg hlt]
  · intro L i hpos hnone
    rw [up_heapify]
    simp only [if_pos hpos]
  · intro L i hneg
    rw [up_heapify]
    simp [hneg]

theorem down_heapify_multiset (lt : α → α → Bool) : ∀ (L : List α) (i : Nat),
    ((down_heapify lt L i : List α) : Multiset α) = ↑L := by
  refine down_heapify.induct lt
    (fun L i => ((down_heapify lt L i : List α) : Multiset α) = ↑L) ?_ ?_ ?_ ?_ ?_ ?_ ?_
  · intro L i hlen lc cur hcur hlc hlt ih
    rw [down_heapify]
    simp only [if_pos hlen, hlc, hcur, if_pos hlt]
    rw [ih, swap_multiset]
  · intro L i hlen lc cur hcur hlc hlt hlen2 rc cur₂ hcur₂ hrc hlt2 ih
    obtain rfl : cur = cur₂ := Option.some.inj (hcur.symm.trans hcur₂)
    rw [down_heapify]
    simp only [if_pos hlen, hlc, hcur, if_neg hlt, if_pos hlen2, hrc, if_pos hlt2]
    rw [ih, swap_multiset]
  · intro L i hlen lc cur hcur hlc hlt hlen2 rc cur₂ hcur₂ hrc hlt2
    obtain rfl : cur = cur₂ := Option.some.inj (hcur.symm.trans hcur₂)
    rw [down_heapify]
    simp only [if_pos hlen, hlc, hcur, if_neg hlt, if_pos hlen2, hrc, if_neg hlt2]
  · intro L i hlen lc cur hcur hlc hlt hlen2 hnone
    rw [down_heapify]
    simp only [if_pos hlen, hlc, hcur, if_neg hlt, if_pos hlen2]
    cases hx : L.get? (right_child i) with
    | none => simp [hx]
    | some rc => exact (hnone rc cur hx hcur).elim
  · intro L i hlen lc cur hcur hlc hlt hlen2
    rw [down_heapify]
    simp only [if_pos hlen, hlc, hcur, if_neg hlt, if_neg hlen2]
  · intro L i hlen hnone
    rw [down_heapify]
    simp only [if_pos hlen]
  · intro L i hneg
    rw [down_heapify]
    simp [hneg]

theorem coe_append_singleton (l : List α) (g : α) :
    ((l ++ [g] : List α) : Multiset α) = ↑l + {g} := by
  rw [← Multiset.coe_singleton g, Multiset.coe_add]

theorem insert_multiset (lt : α → α → Bool) (L : List α) (x : α) :
    ((insert lt L x : List α) : Multiset α) = ↑L + {x} := by
  rw [insert, up_heapify_multiset, coe_append_singleton]

theorem pop_multiset (lt : α → α → Bool) (L : List α) (h : L ≠ []) :
    ∃ v, (pop lt L).1 = some v ∧ v ∈ L ∧
      (((pop lt L).2 : List α) : Multiset α) + {v} = ↑L := by
  match L with
  | [a] =>
    refine ⟨a, ?_, by simp, ?_⟩
    · simp [pop]
    · simp [pop]
  | a :: b :: t =>
    have hne : (a :: b :: t) ≠ [] := by simp
    have hlast : (a :: b :: t).getLast? = some ((a :: b :: t).getLast hne) :=
      List.getLast?_eq_getLast_of_ne_nil hne
    have h1 : ¬((a :: b :: t).length = 1) := by simp
    have h0 : ¬((a :: b :: t).length = 0) := by simp
    refine ⟨a, ?_, by simp, ?_⟩
    · rw [pop, if_neg h1, if_neg h0]
      rw [show (a :: b :: t).get? 0 = some a from rfl, hlast]
    · rw [pop, if_neg h1, if_neg h0]
      rw [show (a :: b :: t).get? 0 = some a from rfl, hlast]
      simp only
      rw [down_heapify_multiset]
      have hd : (a :: b :: t).dropLast = a :: (b :: t).dropLast := by simp
      have hget : ((a :: b :: t).dropLast).get? 0 = some a := by rw [hd]; rfl
      rw [set_multiset _ 0 a _ hget]
      rw [← coe_append_singleton, List.dropLast_append_getLast hne]

end Heap

/-- C10: `insert(x)` makes the heap contents exactly the original multiset
plus `x`; on a non-empty heap, `pop` returns a stored element and leaves
exactly the original multiset minus one occurrence of the returned value,
whatever the ordering relation. -/
theorem heap_pop_insert_contents {α : Type} (lt : α → α → Bool) (L : List α) (x : α) :
    ((Heap.insert lt L x : List α) : Multiset α) = ↑L + {x} ∧
    (L ≠ [] → ∃ v, (Heap.pop lt L).1 = some v ∧ v ∈ L ∧
      (((Heap.pop lt L).2 : List α) : Multiset α) + {v} = ↑L) :=
  ⟨Heap.insert_multiset lt L x, fun h => Heap.pop_multiset lt L h⟩

/-- C10 witness: the theorem applied to the heap `[1, 2]` and new element
`5`, with the non-emptiness hypothesis discharged concretely. -/
theorem heap_pop_insert_contents_witness :
    ((Heap.insert ltNat [1, 2] 5 : List Nat) : Multiset Nat) = ↑[1, 2] + {5} ∧
    (∃ v, (Heap.pop ltNat [1, 2]).1 = some v ∧ v ∈ [1, 2] ∧
      (((Heap.pop ltNat [1, 2]).2 : List Nat) : Multiset Nat) + {v} = ↑[1, 2]) :=
  ⟨(heap_pop_insert_contents ltNat [1, 2] 5).1,
   (heap_pop_insert_contents ltNat [1, 2] 5).2 (by simp)⟩

/-! ## Graph symmetry invariant (C6) -/

/-- Well-formedness that Python dicts guarantee automatically: no duplicate
keys in the outer dict or in any adjacency dict. -/
def WFnet (net : Net) : Prop :=
  (dkeys net).Nodup ∧ ∀ p ∈ net, (dkeys p.2).Nodup

/-- The symmetry invariant of the spec: `a` appears in `b`'s adjacency
with weight `w` iff `b` appears in `a`'s adjacency with weight `w`. -/
def SymP (net : Net) : Prop :=
  ∀ a b w, Network.weight net a b = some w ↔ Network.weight net b a = some w

/-- A mutation call on a `Network`, as issued by client code. -/
inductive Op : Type
  | addNode (n : Nat)
  | addLink (a b : Nat)
  | delLink (a b : Nat)

/-- Execute one `Network` method call. -/
def execOp (net : Net) : Op → Except Err Net
  | .addNode n => .ok (Network.add_node net n).2
  | .addLink a b => .ok (Network.add_link net a b).2
  | .delLink a b => Network.del_link net a b

/-- Execute a sequence of `Network` method calls, stopping at the first
raised error. -/
def runOps : List Op → Net → Except Err Net
  | [], net => .ok net
  | op :: rest, net =>
    match execOp net op with
    | .ok net2 => runOps rest net2
    | .error e => .error e

theorem weight_add_node (net : Net) (n a b : Nat) :
    Network.weight (Network.add_node net n).2 a b = Network.weight net a b := by
  unfold Network.add_node Network.weight
  simp only
  by_cases h : dmem n net
  · simp [h]
  · simp only [Bool.not_eq_true] at h
    simp only [h, Bool.false_eq_true, if_false]
    cases hl : dlookup a net with
    | some m =>
      rw [dlookup_append_of_some _ _ _ _ hl]
    | none =>
      rw [dlookup_append_of_none _ _ _ hl]
      by_cases hn : n = a
      · simp [dlookup, hn]
      · simp [dlookup, hn]

theorem add_link_state (net : Net) (a b : Nat) :
    Network.add_link net a b = (some (-1), (Network.add_node net a).2) := rfl

theorem wf_add_node (net : Net) (n : Nat) (h : WFnet net) :
    WFnet (Network.add_node net n).2 := by
  unfold Network.add_node
  simp only
  by_cases hm : dmem n net
  · simpa [hm] using h
  · simp only [Bool.not_eq_true] at hm
    simp only [hm, Bool.false_eq_true, if_false]
    constructor
    · have hkeys : dkeys (net ++ [(n, [])]) = dkeys net ++ [n] := by simp [dkeys]
      rw [hkeys]
      have hnotin : ¬ n ∈ dkeys net := by
        rw [mem_dkeys]
        simp [dmem] at hm
        simp [hm]
      simp [List.nodup_append, h.1, hnotin]
    · intro p hp
      rcases List.mem_append.mp hp with hp | hp
      · exact h.2 p hp
      · simp at hp
        subst hp
        simp [dkeys]

theorem sym_add_node (net : Net) (n : Nat) (h : SymP net) :
    SymP (Network.add_node net n).2 := by
  intro a b w
  rw [weight_add_node, weight_add_node]
  exact h a b w

theorem dset_mem : ∀ {β : Type} (d : Dict β) (k : Nat) (v : β) (p : Nat × β),
    p ∈ dset d k v → p = (k, v) ∨ p ∈ d := by
  intro β d
  induction d with
  | nil => intro k v p hp; simpa [dset] using hp
  | cons q t ih =>
    intro k v p hp
    obtain ⟨k₁, v₁⟩ := q
    by_cases hk : k₁ = k
    · simp only [dset, if_pos hk] at hp
      rcases List.mem_cons.mp hp with hp | hp
      · exact Or.inl hp
      · exact Or.inr (List.mem_cons_of_mem _ hp)
    · simp only [dset, if_neg hk] at hp
      rcases List.mem_cons.mp hp with hp | hp
      · exact Or.inr (by simp [hp])
      · rcases ih k v p hp with hp | hp
        · exact Or.inl hp
        · exact Or.inr (List.mem_cons_of_mem _ hp)

theorem del_link_inv (net net' : Net) (a b : Nat)
    (hwf : WFnet net) (hsym : SymP net)
    (h : Network.del_link net a b = .ok net') : WFnet net' ∧ SymP net' := by
  unfold Network.del_link at h
  cases hm1 : dlookup a net with
  | none => rw [hm1] at h; exact absurd h (by simp)
  | some m1 =>
    simp only [hm1] at h
    by_cases hb : dmem b m1
    · rw [if_pos hb] at h
      cases hm2 : dlookup b (dset net a (ddel m1 b)) with
      | none => simp only [hm2] at h; exact absurd h (by simp)
      | some m2 =>
        simp only [hm2] at h
        by_cases ha2 : dmem a m2
        · rw [if_pos ha2] at h
          simp only [Except.ok.injEq] at h
          subst h
          have hamem : a ∈ dkeys net := (mem_dkeys _ _).mpr (by simp [hm1])
          have hnd1 : (dkeys m1).Nodup := hwf.2 (a, m1) (dlookup_mem _ _ _ hm1)
          have hab : a ≠ b := by
            intro he
            subst he
            have hm2eq : m2 = ddel m1 a := by
              have hs := dlookup_dset_self net a (ddel m1 a)
              rw [hs] at hm2
              exact (Option.some.inj hm2).symm
            have h0 : dlookup a (ddel m1 a) = none := dlookup_ddel_self m1 a hnd1
            rw [hm2eq] at ha2
            simp [dmem, h0] at ha2
          have hm2' : dlookup b net = some m2 := by
            rw [dlookup_dset_ne net a (ddel m1 b) b (Ne.symm hab)] at hm2
            exact hm2
          have hnd2 : (dkeys m2).Nodup := hwf.2 (b, m2) (dlookup_mem _ _ _ hm2')
          have hbmem : b ∈ dkeys net := (mem_dkeys _ _).mpr (by simp [hm2'])
          -- lookup characterization of the final state
          have lk_a : dlookup a (dset (dset net a (ddel m1 b)) b (ddel m2 a)) =
              some (ddel m1 b) := by
            rw [dlookup_dset_ne _ b (ddel m2 a) a hab, dlookup_dset_self]
          have lk_b : dlookup b (dset (dset net a (ddel m1 b)) b (ddel m2 a)) =
              some (ddel m2 a) := dlookup_dset_self _ b _
          have lk_other : ∀ x, x ≠ a → x ≠ b →
              dlookup x (dset (dset net a (ddel m1 b)) b (ddel m2 a)) = dlookup x net := by
            intro x hxa hxb
            rw [dlookup_dset_ne _ b (ddel m2 a) x hxb, dlookup_dset_ne _ a (ddel m1 b) x hxa]
          -- weight characterization
          have weight_eq : ∀ (d : Net) (x y : Nat) (m : Dict Nat),
              dlookup x d = some m → Network.weight d x y = dlookup y m := by
            intro d x y m hm
            unfold Network.weight
            rw [hm]
            rfl
          have w_aa : ∀ y, Network.weight (dset (dset net a (ddel m1 b)) b (ddel m2 a)) a y =
              if y = b then none else Network.weight net a y := by
            intro y
            rw [weight_eq _ _ _ _ lk_a]
            by_cases hyb : y = b
            · rw [if_pos hyb, hyb, dlookup_ddel_self m1 b hnd1]
            · rw [if_neg hyb, dlookup_ddel_ne m1 b y hyb, weight_eq net a y m1 hm1]
          have w_bb : ∀ y, Network.weight (dset (dset net a (ddel m1 b)) b (ddel m2 a)) b y =
              if y = a then none else Network.weight net b y := by
            intro y
            rw [weight_eq _ _ _ _ lk_b]
            by_cases hya : y = a
            · rw [if_pos hya, hya, dlookup_ddel_self m2 a hnd2]
            · rw [if_neg hya, dlookup_ddel_ne m2 a y hya, weight_eq net b y m2 hm2']
          have w_oo : ∀ x y, x ≠ a → x ≠ b →
              Network.weight (dset (dset net a (ddel m1 b)) b (ddel m2 a)) x y =
              Network.weight net x y := by
            intro x y hxa hxb
            unfold Network.weight
            rw [lk_other x hxa hxb]
          have wchar : ∀ x y,
              Network.weight (dset (dset net a (ddel m1 b)) b (ddel m2 a)) x y =
              if (x = a ∧ y = b) ∨ (x = b ∧ y = a) then none
              else Network.weight net x y := by
            intro x y
            by_cases hxa : x = a
            · rw [hxa, w_aa y]
              by_cases hyb : y = b
              · rw [if_pos hyb, if_pos (Or.inl ⟨rfl, hyb⟩)]
              · rw [if_neg hyb, if_neg ?_]
                rintro (⟨_, hc⟩ | ⟨hc, _⟩)
                · exact hyb hc
                · exact hab hc
            · by_cases hxb : x = b
              · rw [hxb, w_bb y]
                by_cases hya : y = a
                · rw [if_pos hya, if_pos (Or.inr ⟨rfl, hya⟩)]
                · rw [if_neg hya, if_neg ?_]
                  rintro (⟨hc, _⟩ | ⟨_, hc⟩)
                  · exact (Ne.symm hab) hc
                  · exact hya hc
              · rw [w_oo x y hxa hxb, if_neg ?_]
                rintro (⟨hc, _⟩ | ⟨hc, _⟩)
                · exact hxa hc
                · exact hxb hc
          constructor
          · -- well-formedness is preserved
            constructor
            · have hk1 : dkeys (dset net a (ddel m1 b)) = dkeys net :=
                dkeys_dset_mem net a (ddel m1 b) hamem
              have hbmem1 : b ∈ dkeys (dset net a (ddel m1 b)) := by rw [hk1]; exact hbmem
              rw [dkeys_dset_mem _ b (ddel m2 a) hbmem1, hk1]
              exact hwf.1
            · intro p hp
              rcases dset_mem _ b (ddel m2 a) p hp with hp | hp
              · subst hp
                exact hnd2.sublist (dkeys_ddel_sublist m2 a)
              · rcases dset_mem _ a (ddel m1 b) p hp with hp | hp
                · subst hp
                  exact hnd1.sublist (dkeys_ddel_sublist m1 b)
                · exact hwf.2 p hp
          · -- symmetry is preserved
            intro x y w
            rw [wchar x y, wchar y x]
            by_cases hc : (x = a ∧ y = b) ∨ (x = b ∧ y = a)
            · rw [if_pos hc, if_pos (by tauto)]
            · rw [if_neg hc, if_neg (by tauto)]
              exact hsym x y w
        · rw [if_neg ha2] at h
          exact absurd h (by simp)
    · rw [if_neg hb] at h
      exact absurd h (by simp)

theorem runOps_inv : ∀ (ops : List Op) (net net' : Net),
    WFnet net ∧ SymP net → runOps ops net = .ok net' → WFnet net' ∧ SymP net' := by
  intro ops
  induction ops with
  | nil =>
    intro net net' hinv h
    simp only [runOps, Except.ok.injEq] at h
    subst h
    exact hinv
  | cons op rest ih =>
    intro net net' hinv h
    simp only [runOps] at h
    cases op with
    | addNode n =>
      simp only [execOp] at h
      exact ih _ _ ⟨wf_add_node net n hinv.1, sym_add_node net n hinv.2⟩ h
    | addLink a b =>
      simp only [execOp, add_link_state] at h
      exact ih _ _ ⟨wf_add_node net a hinv.1, sym_add_node net a hinv.2⟩ h
    | delLink a b =>
      simp only [execOp] at h
      cases hd : Network.del_link net a b with
      | ok net2 =>
        rw [hd] at h
        exact ih _ _ (del_link_inv net net2 a b hinv.1 hinv.2 hd) h
      | error e =>
        rw [hd] at h
        exact absurd h (by simp)

/-- C6: in every `Network` built from the empty network by a sequence of
`add_node` / `add_link` / (successful) `del_link` calls, `a` appears in
`b`'s adjacency with weight `w` iff `b` appears in `a`'s adjacency with
the same weight `w`. -/
theorem network_symmetry_invariant (ops : List Op) (net : Net)
    (h : runOps ops [] = .ok net) :
    ∀ a b w, Network.weight net a b = some w ↔ Network.weight net b a = some w :=
  (runOps_inv ops [] net
    ⟨⟨by simp [dkeys], by simp⟩, fun a b w => by simp [Network.weight, dlookup]⟩ h).2

/-- C6 witness: the invariant instantiated on the concrete call sequence
`add_node 0; add_link 0 1; add_node 5`, whose run succeeds. -/
theorem network_symmetry_invariant_witness :
    runOps [Op.addNode 0, Op.addLink 0 1, Op.addNode 5] [] = .ok [(0, []), (5, [])] ∧
    ∀ a b w, Network.weight [(0, []), (5, [])] a b = some w ↔
      Network.weight [(0, []), (5, [])] b a = some w :=
  ⟨rfl, network_symmetry_invariant [Op.addNode 0, Op.addLink 0 1, Op.addNode 5]
    [(0, []), (5, [])] rfl⟩

/-! ## `RSTree` (src/jbgraph2.py)

`RSTree.__init__` runs a breadth-first traversal from the root over the
supplied network, recording every discovered edge in a tree dict with a
color: `'green'` for tree edges (recorded parent→child only) and `'red'`
for non-tree edges (recorded in both directions). -/

/-- The edge colors used by `RSTree` (`'green'` = tree edge, `'red'` =
non-tree edge). -/
inductive Color : Type
  | green
  | red
deriving DecidableEq, Repr

/-- The `_tree` state: node ↦ (neighbor ↦ color). -/
abbrev TreeDict := Dict (Dict Color)

/-- Nested dict assignment `d[k1][k2] = v`; `k1` is present at every call
site (the fallback returns the dict unchanged where Python would raise). -/
def dset2 {γ : Type} (d : Dict (Dict γ)) (k1 k2 : Nat) (v : γ) : Dict (Dict γ) :=
  match dlookup k1 d with
  | some m => dset d k1 (dset m k2 v)
  | none => d

namespace RSTree

/-- The local helper `add_link(node1, node2, color)` of `RSTree.__init__`:
ensure both keys exist, set `tree[node1][node2] = color`, and for `'red'`
also set `tree[node2][node1] = 'red'`. -/
def tree_add_link (tree : TreeDict) (node1 node2 : Nat) (color : Color) : TreeDict :=
  let t1 := if dmem node1 tree then tree else tree ++ [(node1, [])]
  let t2 := if dmem node2 t1 then t1 else t1 ++ [(node2, [])]
  let t3 := dset2 t2 node1 node2 color
  if color = .red then dset2 t3 node2 node1 .red else t3

/-- The `for neighbor in neighbors` body of `RSTree.__init__`, with
Python's short-circuit evaluation of
`neighbor not in tree[current] and current not in tree[neighbor]`
(a missing key raises `KeyError`, proved unreachable). -/
def visit_neighbors (current : Nat) :
    List Nat → TreeDict × List Nat × List Nat → Except Err (TreeDict × List Nat × List Nat)
  | [], st => .ok st
  | n :: rest, (tree, marked, openl) =>
    if n ∈ marked then
      match dlookup current tree with
      | none => .error .notFound
      | some tc =>
        if dmem n tc then visit_neighbors current rest (tree, marked, openl)
        else
          match dlookup n tree with
          | none => .error .notFound
          | some tn =>
            if dmem current tn then visit_neighbors current rest (tree, marked, openl)
            else visit_neighbors current rest
              (tree_add_link tree current n .red, marked, openl)
    else
      visit_neighbors current rest
        (tree_add_link tree current n .green, marked ++ [n], openl ++ [n])

/-- The `while open_list != []` loop of `RSTree.__init__`; the fuel bounds
the number of iterations and is chosen large enough in `rstree` that it
provably never runs out. -/
def bfs (net : Net) : Nat → TreeDict × List Nat × List Nat → Except Err TreeDict
  | _, (tree, _, []) => .ok tree
  | 0, _ => .error .noFuel
  | fuel + 1, (tree, marked, current :: rest) =>
    match Network.find_neighbors net current with
    | .error e => .error e
    | .ok neighbors =>
      match visit_neighbors current neighbors (tree, marked, rest) with
      | .error e => .error e
      | .ok st => bfs net fuel st

/-- All nodes occurring as a neighbor key anywhere in the network; every
node the traversal ever marks is the root or one of these. -/
def innerNodes (net : Net) : List Nat := (net.map (fun p => dkeys p.2)).join

/-- Iteration budget: strictly more than the number of distinct markable
nodes. -/
def bfsFuel (net : Net) (root : Nat) : Nat := ((root :: innerNodes net).dedup).length + 1

/-- `RSTree.__init__(network, root)`: the computed `_tree`, or the raised
error. -/
def rstree (net : Net) (root : Nat) : Except Err TreeDict :=
  bfs net (bfsFuel net root) ([(root, [])], [root], [root])

/-- `Network.find_neighbors` with the network state threaded through
explicitly: the method only reads `self._net`, so the state is returned
unchanged. -/
def find_neighborsS (net : Net) (node : Nat) : Except Err (List Nat) × Net :=
  (Network.find_neighbors net node, net)

/-- The traversal loop with the network state threaded through every
neighbor enumeration. -/
def bfsS : Nat → Net × TreeDict × List Nat × List Nat → Except Err TreeDict × Net
  | _, (net, tree, _, []) => (.ok tree, net)
  | 0, (net, _, _, _) => (.error .noFuel, net)
  | fuel + 1, (net, tree, marked, current :: rest) =>
    match find_neighborsS net current with
    | (.error e, net2) => (.error e, net2)
    | (.ok neighbors, net2) =>
      match visit_neighbors current neighbors (tree, marked, rest) with
      | .error e => (.error e, net2)
      | .ok st => bfsS fuel (net2, st)

/-- `RSTree.__init__` with the network state threaded through. -/
def rstreeS (net : Net) (root : Nat) : Except Err TreeDict × Net :=
  bfsS (bfsFuel net root) (net, [(root, [])], [root], [root])

theorem bfsS_eq : ∀ (fuel : Nat) (net : Net) (tree : TreeDict) (marked openl : List Nat),
    bfsS fuel (net, tree, marked, openl) = (bfs net fuel (tree, marked, openl), net) := by
  intro fuel
  induction fuel with
  | zero => intro net tree marked openl; cases openl <;> rfl
  | succ f ih =>
    intro net tree marked openl
    cases openl with
    | nil => rfl
    | cons current rest =>
      simp only [bfsS, bfs, find_neighborsS]
      cases hn : Network.find_neighbors net current with
      | error e => rfl
      | ok neighbors =>
        simp only
        cases hv : visit_neighbors current neighbors (tree, marked, rest) with
        | error e => rfl
        | ok st =>
          simp only
          obtain ⟨t2, m2, o2⟩ := st
          exact ih net t2 m2 o2

end RSTree

/-- C9: building an `RSTree` over a network leaves the network's adjacency
state exactly as it was (the builder only reads it through
`find_neighbors`), and the state-threaded builder computes the same
result as the read-only one. -/
theorem rstree_preserves_network (net : Net) (root : Nat) :
    (RSTree.rstreeS net root).2 = net ∧
    (RSTree.rstreeS net root).1 = RSTree.rstree net root := by
  unfold RSTree.rstreeS RSTree.rstree
  rw [RSTree.bfsS_eq]
  exact ⟨rfl, rfl⟩

/-! ### Entry-level lemmas for nested dicts and `tree_add_link` -/

/-- The value stored for the ordered key pair `(a, b)` in a nested dict
(`d[a][b]` as an `Option`); for a `Net` this is `Network.weight`, for a
`TreeDict` it is the recorded edge color. -/
def entry2 {γ : Type} (d : Dict (Dict γ)) (a b : Nat) : Option γ :=
  (dlookup a d).bind (dlookup b)

section Entry2Lemmas

variable {γ : Type}

theorem entry2_eq (d : Dict (Dict γ)) (a b : Nat) (m : Dict γ)
    (hm : dlookup a d = some m) : entry2 d a b = dlookup b m := by
  unfold entry2
  rw [hm]
  rfl

theorem entry2_none (d : Dict (Dict γ)) (a b : Nat)
    (hm : dlookup a d = none) : entry2 d a b = none := by
  unfold entry2
  rw [hm]
  rfl

theorem lookup_of_mem_dkeys {d : Dict γ} {k : Nat} (h : k ∈ dkeys d) :
    ∃ m, dlookup k d = some m := by
  have hs := (mem_dkeys d k).mp h
  cases hl : dlookup k d with
  | none => rw [hl] at hs; simp at hs
  | some m => exact ⟨m, rfl⟩

theorem dkeys_dset2 (d : Dict (Dict γ)) (k1 k2 : Nat) (v : γ) :
    dkeys (dset2 d k1 k2 v) = dkeys d := by
  unfold dset2
  cases h : dlookup k1 d with
  | none => rfl
  | some m => exact dkeys_dset_mem d k1 _ ((mem_dkeys _ _).mpr (by simp [h]))

theorem entry2_dset2_self (d : Dict (Dict γ)) (k1 k2 : Nat) (v : γ)
    (h : k1 ∈ dkeys d) : entry2 (dset2 d k1 k2 v) k1 k2 = some v := by
  obtain ⟨m, hm⟩ := lookup_of_mem_dkeys h
  unfold dset2
  rw [hm]
  rw [entry2_eq _ _ _ _ (dlookup_dset_self d k1 _)]
  exact dlookup_dset_self m k2 v

theorem entry2_dset2_other (d : Dict (Dict γ)) (k1 k2 : Nat) (v : γ) (x y : Nat)
    (hxy : ¬(x = k1 ∧ y = k2)) :
    entry2 (dset2 d k1 k2 v) x y = entry2 d x y := by
  unfold dset2
  cases hm : dlookup k1 d with
  | none => rfl
  | some m =>
    by_cases hx : x = k1
    · subst hx
      have hy : y ≠ k2 := fun hy => hxy ⟨rfl, hy⟩
      rw [entry2_eq _ _ _ _ (dlookup_dset_self d x _), entry2_eq _ _ _ _ hm]
      exact dlookup_dset_ne m k2 v y hy
    · unfold entry2
      rw [dlookup_dset_ne d k1 _ x hx]

theorem entry2_append_empty (t : Dict (Dict γ)) (n : Nat) (x y : Nat) :
    entry2 (t ++ [(n, [])]) x y = entry2 t x y := by
  unfold entry2
  cases h : dlookup x t with
  | some m => rw [dlookup_append_of_some _ _ _ _ h]
  | none =>
    rw [dlookup_append_of_none _ _ _ h]
    by_cases hx : n = x
    · subst hx
      simp [dlookup]
    · simp [dlookup, hx]

end Entry2Lemmas

namespace RSTree

theorem dmem_eq_mem_dkeys {γ : Type} (k : Nat) (d : Dict γ) :
    dmem k d = true ↔ k ∈ dkeys d := by
  rw [mem_dkeys]
  unfold dmem
  exact Iff.rfl

theorem tal_green_unfold (t : TreeDict) (c n : Nat)
    (hc : c ∈ dkeys t) (hn : ¬ n ∈ dkeys t) :
    tree_add_link t c n .green = dset2 (t ++ [(n, [])]) c n .green := by
  have h1 : dmem c t = true := (dmem_eq_mem_dkeys c t).mpr hc
  have h2 : dmem n t = false := by
    cases h : dmem n t
    · rfl
    · exact absurd ((dmem_eq_mem_dkeys n t).mp h) hn
  unfold tree_add_link
  simp [h1, h2]

theorem tal_green_keys (t : TreeDict) (c n : Nat)
    (hc : c ∈ dkeys t) (hn : ¬ n ∈ dkeys t) :
    dkeys (tree_add_link t c n .green) = dkeys t ++ [n] := by
  rw [tal_green_unfold t c n hc hn, dkeys_dset2]
  simp [dkeys]

theorem tal_green_self (t : TreeDict) (c n : Nat)
    (hc : c ∈ dkeys t) (hn : ¬ n ∈ dkeys t) :
    entry2 (tree_add_link t c n .green) c n = some .green := by
  rw [tal_green_unfold t c n hc hn]
  refine entry2_dset2_self _ c n _ ?_
  simp [dkeys, List.mem_append]
  left
  simpa [dkeys] using hc

theorem tal_green_other (t : TreeDict) (c n : Nat)
    (hc : c ∈ dkeys t) (hn : ¬ n ∈ dkeys t) (x y : Nat) (hxy : ¬(x = c ∧ y = n)) :
    entry2 (tree_add_link t c n .green) x y = entry2 t x y := by
  rw [tal_green_unfold t c n hc hn, entry2_dset2_other _ _ _ _ _ _ hxy,
    entry2_append_empty]

theorem tal_red_unfold (t : TreeDict) (c n : Nat)
    (hc : c ∈ dkeys t) (hn : n ∈ dkeys t) :
    tree_add_link t c n .red = dset2 (dset2 t c n .red) n c .red := by
  have h1 : dmem c t = true := (dmem_eq_mem_dkeys c t).mpr hc
  have h2 : dmem n t = true := (dmem_eq_mem_dkeys n t).mpr hn
  unfold tree_add_link
  simp [h1, h2]

theorem tal_red_keys (t : TreeDict) (c n : Nat)
    (hc : c ∈ dkeys t) (hn : n ∈ dkeys t) :
    dkeys (tree_add_link t c n .red) = dkeys t := by
  rw [tal_red_unfold t c n hc hn, dkeys_dset2, dkeys_dset2]

theorem tal_red_fwd (t : TreeDict) (c n : Nat)
    (hc : c ∈ dkeys t) (hn : n ∈ dkeys t) :
    entry2 (tree_add_link t c n .red) c n = some .red := by
  rw [tal_red_unfold t c n hc hn]
  by_cases hcn : c = n
  · subst hcn
    exact entry2_dset2_self _ c c _ (by rw [dkeys_dset2]; exact hc)
  · rw [entry2_dset2_other _ _ _ _ _ _ (fun hx => hcn hx.1)]
    exact entry2_dset2_self _ c n _ hc

theorem tal_red_bwd (t : TreeDict) (c n : Nat)
    (hc : c ∈ dkeys t) (hn : n ∈ dkeys t) :
    entry2 (tree_add_link t c n .red) n c = some .red := by
  rw [tal_red_unfold t c n hc hn]
  exact entry2_dset2_self _ n c _ (by rw [dkeys_dset2]; exact hn)

theorem tal_red_other (t : TreeDict) (c n : Nat)
    (hc : c ∈ dkeys t) (hn : n ∈ dkeys t) (x y : Nat)
    (h1 : ¬(x = c ∧ y = n)) (h2 : ¬(x = n ∧ y = c)) :
    entry2 (tree_add_link t c n .red) x y = entry2 t x y := by
  rw [tal_red_unfold t c n hc hn, entry2_dset2_other _ _ _ _ _ _ h2,
    entry2_dset2_other _ _ _ _ _ _ h1]

end RSTree

namespace RSTree

/-- The neighbor list of `a` (empty when `a` is not a node), matching the
iteration order of `find_neighbors`. -/
def adj (net : Net) (a : Nat) : List Nat :=
  match dlookup a net with
  | some m => dkeys m
  | none => []

/-- The pair `{a, b}` is classified exactly once in the tree: a green
edge recorded in exactly one direction, or a red edge recorded in both. -/
def classified (t : TreeDict) (a b : Nat) : Prop :=
  (entry2 t a b = some .green ∧ entry2 t b a = none) ∨
  (entry2 t b a = some .green ∧ entry2 t a b = none) ∨
  (entry2 t a b = some .red ∧ entry2 t b a = some .red)

/-- Neither direction of the pair `{a, b}` is recorded in the tree. -/
def noEntry (t : TreeDict) (a b : Nat) : Prop :=
  entry2 t a b = none ∧ entry2 t b a = none

theorem classified_symm {t : TreeDict} {a b : Nat} (h : classified t a b) :
    classified t b a := by
  rcases h with h | h | h
  · exact Or.inr (Or.inl h)
  · exact Or.inl h
  · exact Or.inr (Or.inr ⟨h.2, h.1⟩)

theorem adj_eq {net : Net} {c : Nat} {mc : Dict Nat}
    (hc : dlookup c net = some mc) : adj net c = dkeys mc := by
  unfold adj
  rw [hc]

theorem mem_adj_imp_node {net : Net} {a b : Nat} (h : b ∈ adj net a) :
    a ∈ dkeys net := by
  unfold adj at h
  cases hm : dlookup a net with
  | none => rw [hm] at h; simp at h
  | some m => exact (mem_dkeys _ _).mpr (by simp [hm])

theorem mem_adj_imp_inner {net : Net} {a b : Nat} (h : b ∈ adj net a) :
    b ∈ innerNodes net := by
  unfold adj at h
  cases hm : dlookup a net with
  | none => rw [hm] at h; simp at h
  | some m =>
    rw [hm] at h
    unfold innerNodes
    rw [List.mem_join]
    exact ⟨dkeys m, List.mem_map_of_mem _ (dlookup_mem _ _ _ hm), h⟩

theorem find_neighbors_ok {net : Net} {c : Nat} {mc : Dict Nat}
    (hc : dlookup c net = some mc) :
    Network.find_neighbors net c = .ok (dkeys mc) := by
  unfold Network.find_neighbors
  rw [hc]

/-- Invariant of the partially processed neighbor loop of node `c`:
`p` are the fully processed nodes, `o` the currently open ones (the
marked list is `p ++ c :: o`), and `done` the neighbors of `c` already
handled in this iteration. -/
structure VState (net : Net) (root : Nat) (c : Nat) (t : TreeDict)
    (p o done : List Nat) : Prop where
  nodup : (p ++ c :: o).Nodup
  root_mem : root ∈ p ++ c :: o
  keys_eq : dkeys t = p ++ c :: o
  sub_nodes : ∀ x ∈ p ++ c :: o, x ∈ dkeys net
  sub_marks : ∀ x ∈ p ++ c :: o, x ∈ root :: innerNodes net
  closed : ∀ a ∈ p, ∀ b ∈ adj net a, b ∈ p ++ c :: o
  done_marked : ∀ b ∈ done, b ∈ p ++ c :: o
  class_yes : ∀ a b, b ∈ adj net a →
    (a ∈ p ∨ b ∈ p ∨ (a = c ∧ b ∈ done) ∨ (b = c ∧ a ∈ done)) → classified t a b
  class_no : ∀ a b, b ∈ adj net a →
    ¬(a ∈ p ∨ b ∈ p ∨ (a = c ∧ b ∈ done) ∨ (b = c ∧ a ∈ done)) → noEntry t a b

/-- Invariant of the outer traversal loop: `p` processed, `o` open,
marked is `p ++ o`. -/
structure BState (net : Net) (root : Nat) (t : TreeDict) (p o : List Nat) : Prop where
  nodup : (p ++ o).Nodup
  root_mem : root ∈ p ++ o
  keys_eq : dkeys t = p ++ o
  sub_nodes : ∀ x ∈ p ++ o, x ∈ dkeys net
  sub_marks : ∀ x ∈ p ++ o, x ∈ root :: innerNodes net
  closed : ∀ a ∈ p, ∀ b ∈ adj net a, b ∈ p ++ o
  class_yes : ∀ a b, b ∈ adj net a → (a ∈ p ∨ b ∈ p) → classified t a b
  class_no : ∀ a b, b ∈ adj net a → ¬ a ∈ p → ¬ b ∈ p → noEntry t a b

end RSTree

namespace RSTree

theorem VState.push_done {net : Net} {root c : Nat} {t : TreeDict} {p o done : List Nat}
    (hst : VState net root c t p o done)
    {n : Nat} (hnadj : n ∈ adj net c) (hmark : n ∈ p ++ c :: o)
    (hne : ¬ noEntry t c n) :
    VState net root c t p o (done ++ [n]) := by
  have hcls : classified t c n := by
    by_cases hcl : c ∈ p ∨ n ∈ p ∨ (c = c ∧ n ∈ done) ∨ (n = c ∧ c ∈ done)
    · exact hst.class_yes c n hnadj hcl
    · exact absurd (hst.class_no c n hnadj hcl) hne
  refine ⟨hst.nodup, hst.root_mem, hst.keys_eq, hst.sub_nodes, hst.sub_marks,
    hst.closed, ?_, ?_, ?_⟩
  · intro b hb
    rcases List.mem_append.mp hb with hb | hb
    · exact hst.done_marked b hb
    · simp at hb
      subst hb
      exact hmark
  · intro a b hab hcond
    rcases hcond with h | h | ⟨hac, hbd⟩ | ⟨hbc, had⟩
    · exact hst.class_yes a b hab (Or.inl h)
    · exact hst.class_yes a b hab (Or.inr (Or.inl h))
    · rcases List.mem_append.mp hbd with hbd | hbd
      · exact hst.class_yes a b hab (Or.inr (Or.inr (Or.inl ⟨hac, hbd⟩)))
      · simp at hbd
        subst hbd
        subst hac
        exact hcls
    · rcases List.mem_append.mp had with had | had
      · exact hst.class_yes a b hab (Or.inr (Or.inr (Or.inr ⟨hbc, had⟩)))
      · simp at had
        subst had
        subst hbc
        exact classified_symm hcls
  · intro a b hab hncond
    refine hst.class_no a b hab ?_
    rintro (h | h | ⟨hac, hbd⟩ | ⟨hbc, had⟩)
    · exact hncond (Or.inl h)
    · exact hncond (Or.inr (Or.inl h))
    · exact hncond (Or.inr (Or.inr (Or.inl ⟨hac, List.mem_append_left _ hbd⟩)))
    · exact hncond (Or.inr (Or.inr (Or.inr ⟨hbc, List.mem_append_left _ had⟩)))

theorem VState.red_step {net : Net} {root c : Nat} {t : TreeDict} {p o done : List Nat}
    (hst : VState net root c t p o done)
    {n : Nat} (hnadj : n ∈ adj net c) (hmark : n ∈ p ++ c :: o) :
    VState net root c (tree_add_link t c n .red) p o (done ++ [n]) := by
  have hck : c ∈ dkeys t := by rw [hst.keys_eq]; simp
  have hnk : n ∈ dkeys t := by rw [hst.keys_eq]; exact hmark
  have hkeys : dkeys (tree_add_link t c n .red) = dkeys t := tal_red_keys t c n hck hnk
  have hclsn : classified (tree_add_link t c n .red) c n :=
    Or.inr (Or.inr ⟨tal_red_fwd t c n hck hnk, tal_red_bwd t c n hck hnk⟩)
  refine ⟨hst.nodup, hst.root_mem, by rw [hkeys]; exact hst.keys_eq, hst.sub_nodes,
    hst.sub_marks, hst.closed, ?_, ?_, ?_⟩
  · intro b hb
    rcases List.mem_append.mp hb with hb | hb
    · exact hst.done_marked b hb
    · simp at hb
      subst hb
      exact hmark
  · intro a b hab hcond
    by_cases h1 : a = c ∧ b = n
    · obtain ⟨rfl, rfl⟩ := h1
      exact hclsn
    · by_cases h2 : a = n ∧ b = c
      · obtain ⟨rfl, rfl⟩ := h2
        exact classified_symm hclsn
      · have e1 : entry2 (tree_add_link t c n .red) a b = entry2 t a b :=
          tal_red_other t c n hck hnk a b h1 h2
        have e2 : entry2 (tree_add_link t c n .red) b a = entry2 t b a :=
          tal_red_other t c n hck hnk b a (fun hv => h2 ⟨hv.2, hv.1⟩)
            (fun hv => h1 ⟨hv.2, hv.1⟩)
        have hcls_old : classified t a b := by
          rcases hcond with h | h | ⟨hac, hbd⟩ | ⟨hbc, had⟩
          · exact hst.class_yes a b hab (Or.inl h)
          · exact hst.class_yes a b hab (Or.inr (Or.inl h))
          · rcases List.mem_append.mp hbd with hbd | hbd
            · exact hst.class_yes a b hab (Or.inr (Or.inr (Or.inl ⟨hac, hbd⟩)))
            · simp at hbd
              exact absurd ⟨hac, hbd⟩ h1
          · rcases List.mem_append.mp had with had | had
            · exact hst.class_yes a b hab (Or.inr (Or.inr (Or.inr ⟨hbc, had⟩)))
            · simp at had
              exact absurd ⟨had, hbc⟩ h2
        unfold classified at hcls_old ⊢
        rw [e1, e2]
        exact hcls_old
  · intro a b hab hncond
    have h1 : ¬(a = c ∧ b = n) := by
      rintro ⟨rfl, rfl⟩
      exact hncond (Or.inr (Or.inr (Or.inl ⟨rfl, by simp⟩)))
    have h2 : ¬(a = n ∧ b = c) := by
      rintro ⟨rfl, rfl⟩
      exact hncond (Or.inr (Or.inr (Or.inr ⟨rfl, by simp⟩)))
    have e1 : entry2 (tree_add_link t c n .red) a b = entry2 t a b :=
      tal_red_other t c n hck hnk a b h1 h2
    have e2 : entry2 (tree_add_link t c n .red) b a = entry2 t b a :=
      tal_red_other t c n hck hnk b a (fun hv => h2 ⟨hv.2, hv.1⟩)
        (fun hv => h1 ⟨hv.2, hv.1⟩)
    have hold : noEntry t a b := by
      refine hst.class_no a b hab ?_
      rintro (h | h | ⟨hac, hbd⟩ | ⟨hbc, had⟩)
      · exact hncond (Or.inl h)
      · exact hncond (Or.inr (Or.inl h))
      · exact hncond (Or.inr (Or.inr (Or.inl ⟨hac, List.mem_append_left _ hbd⟩)))
      · exact hncond (Or.inr (Or.inr (Or.inr ⟨hbc, List.mem_append_left _ had⟩)))
    unfold noEntry at hold ⊢
    rw [e1, e2]
    exact hold

end RSTree

namespace RSTree

theorem VState.green_step {net : Net} {root c : Nat} {t : TreeDict} {p o done : List Nat}
    (hsym : ∀ a b, b ∈ adj net a → a ∈ adj net b)
    (hst : VState net root c t p o done)
    {n : Nat} (hnadj : n ∈ adj net c) (hmark : ¬ n ∈ p ++ c :: o) :
    VState net root c (tree_add_link t c n .green) p (o ++ [n]) (done ++ [n]) := by
  have hck : c ∈ dkeys t := by rw [hst.keys_eq]; simp
  have hnk : ¬ n ∈ dkeys t := by rw [hst.keys_eq]; exact hmark
  have hnc : n ≠ c := by
    intro h
    exact hmark (by subst h; simp)
  have hshape : p ++ c :: (o ++ [n]) = (p ++ c :: o) ++ [n] := by simp
  have hkeys : dkeys (tree_add_link t c n .green) = dkeys t ++ [n] :=
    tal_green_keys t c n hck hnk
  have hnone : entry2 (tree_add_link t c n .green) n c = none := by
    rw [tal_green_other t c n hck hnk n c (fun hv => hnc hv.1)]
    refine entry2_none t n c ?_
    cases hl : dlookup n t with
    | none => rfl
    | some m => exact absurd ((mem_dkeys _ _).mpr (by simp [hl])) hnk
  have hclsn : classified (tree_add_link t c n .green) c n :=
    Or.inl ⟨tal_green_self t c n hck hnk, hnone⟩
  refine ⟨?_, ?_, ?_, ?_, ?_, ?_, ?_, ?_, ?_⟩
  · rw [hshape, List.nodup_append]
    refine ⟨hst.nodup, by simp, ?_⟩
    intro x hx hx2
    simp at hx2
    subst hx2
    exact hmark hx
  · rw [hshape]
    exact List.mem_append_left _ hst.root_mem
  · rw [hkeys, hst.keys_eq, hshape]
  · intro x hx
    rw [hshape] at hx
    rcases List.mem_append.mp hx with hx | hx
    · exact hst.sub_nodes x hx
    · simp at hx
      subst hx
      exact mem_adj_imp_node (hsym c x hnadj)
  · intro x hx
    rw [hshape] at hx
    rcases List.mem_append.mp hx with hx | hx
    · exact hst.sub_marks x hx
    · simp at hx
      subst hx
      exact List.mem_cons_of_mem _ (mem_adj_imp_inner hnadj)
  · intro a ha b hb
    rw [hshape]
    exact List.mem_append_left _ (hst.closed a ha b hb)
  · intro b hb
    rw [hshape]
    rcases List.mem_append.mp hb with hb | hb
    · exact List.mem_append_left _ (hst.done_marked b hb)
    · simp at hb
      subst hb
      simp
  · intro a b hab hcond
    by_cases h1 : a = c ∧ b = n
    · obtain ⟨rfl, rfl⟩ := h1
      exact hclsn
    · by_cases h2 : a = n ∧ b = c
      · obtain ⟨rfl, rfl⟩ := h2
        exact classified_symm hclsn
      · have e1 : entry2 (tree_add_link t c n .green) a b = entry2 t a b :=
          tal_green_other t c n hck hnk a b h1
        have e2 : entry2 (tree_add_link t c n .green) b a = entry2 t b a :=
          tal_green_other t c n hck hnk b a (fun hv => h2 ⟨hv.2, hv.1⟩)
        have hcls_old : classified t a b := by
          rcases hcond with h | h | ⟨hac, hbd⟩ | ⟨hbc, had⟩
          · exact hst.class_yes a b hab (Or.inl h)
          · exact hst.class_yes a b hab (Or.inr (Or.inl h))
          · rcases List.mem_append.mp hbd with hbd | hbd
            · exact hst.class_yes a b hab (Or.inr (Or.inr (Or.inl ⟨hac, hbd⟩)))
            · simp at hbd
              exact absurd ⟨hac, hbd⟩ h1
          · rcases List.mem_append.mp had with had | had
            · exact hst.class_yes a b hab (Or.inr (Or.inr (Or.inr ⟨hbc, had⟩)))
            · simp at had
              exact absurd ⟨had, hbc⟩ h2
        unfold classified at hcls_old ⊢
        rw [e1, e2]
        exact hcls_old
  · intro a b hab hncond
    have h1 : ¬(a = c ∧ b = n) := by
      rintro ⟨rfl, rfl⟩
      exact hncond (Or.inr (Or.inr (Or.inl ⟨rfl, by simp⟩)))
    have h2 : ¬(a = n ∧ b = c) := by
      rintro ⟨rfl, rfl⟩
      exact hncond (Or.inr (Or.inr (Or.inr ⟨rfl, by simp⟩)))
    have e1 : entry2 (tree_add_link t c n .green) a b = entry2 t a b :=
      tal_green_other t c n hck hnk a b h1
    have e2 : entry2 (tree_add_link t c n .green) b a = entry2 t b a :=
      tal_green_other t c n hck hnk b a (fun hv => h2 ⟨hv.2, hv.1⟩)
    have hold : noEntry t a b := by
      refine hst.class_no a b hab ?_
      rintro (h | h | ⟨hac, hbd⟩ | ⟨hbc, had⟩)
      · exact hncond (Or.inl h)
      · exact hncond (Or.inr (Or.inl h))
      · exact hncond (Or.inr (Or.inr (Or.inl ⟨hac, List.mem_append_left _ hbd⟩)))
      · exact hncond (Or.inr (Or.inr (Or.inr ⟨hbc, List.mem_append_left _ had⟩)))
    unfold noEntry at hold ⊢
    rw [e1, e2]
    exact hold

end RSTree

namespace RSTree

theorem visit_inv (net : Net) (root : Nat)
    (hsym : ∀ a b, b ∈ adj net a → a ∈ adj net b)
    (c : Nat) (mc : Dict Nat) (hc : dlookup c net = some mc) :
    ∀ (todo done : List Nat) (t : TreeDict) (o p : List Nat),
    dkeys mc = done ++ todo →
    VState net root c t p o done →
    ∃ t₂ o₂, visit_neighbors c todo (t, p ++ c :: o, o) = .ok (t₂, p ++ c :: o₂, o₂) ∧
      VState net root c t₂ p o₂ (done ++ todo) := by
  intro todo
  induction todo with
  | nil =>
    intro done t o p hsplit hst
    exact ⟨t, o, rfl, by simpa using hst⟩
  | cons n rest ih =>
    intro done t o p hsplit hst
    have hnadj : n ∈ adj net c := by
      rw [adj_eq hc, hsplit]
      simp
    have hsplit2 : dkeys mc = (done ++ [n]) ++ rest := by rw [hsplit]; simp
    by_cases hmark : n ∈ p ++ c :: o
    · obtain ⟨tc, htc⟩ := lookup_of_mem_dkeys (show c ∈ dkeys t by rw [hst.keys_eq]; simp)
      cases hnc : dlookup n tc with
      | some col =>
        have hne : ¬ noEntry t c n := by
          intro hno
          have h0 := hno.1
          rw [entry2_eq t c n tc htc, hnc] at h0
          exact absurd h0 (by simp)
        obtain ⟨t₂, o₂, hrun, hst2⟩ :=
          ih (done ++ [n]) t o p hsplit2 (hst.push_done hnadj hmark hne)
        refine ⟨t₂, o₂, ?_, by simpa using hst2⟩
        simp only [visit_neighbors]
        rw [if_pos hmark]
        simp only [htc]
        rw [if_pos (show dmem n tc = true by unfold dmem; rw [hnc]; rfl)]
        exact hrun
      | none =>
        have hdm1 : ¬ dmem n tc = true := by unfold dmem; rw [hnc]; simp
        obtain ⟨tn, htn⟩ :=
          lookup_of_mem_dkeys (show n ∈ dkeys t by rw [hst.keys_eq]; exact hmark)
        cases hcc : dlookup c tn with
        | some col =>
          have hne : ¬ noEntry t c n := by
            intro hno
            have h0 := hno.2
            rw [entry2_eq t n c tn htn, hcc] at h0
            exact absurd h0 (by simp)
          obtain ⟨t₂, o₂, hrun, hst2⟩ :=
            ih (done ++ [n]) t o p hsplit2 (hst.push_done hnadj hmark hne)
          refine ⟨t₂, o₂, ?_, by simpa using hst2⟩
          simp only [visit_neighbors]
          rw [if_pos hmark]
          simp only [htc]
          rw [if_neg hdm1]
          simp only [htn]
          rw [if_pos (show dmem c tn = true by unfold dmem; rw [hcc]; rfl)]
          exact hrun
        | none =>
          have hdm2 : ¬ dmem c tn = true := by unfold dmem; rw [hcc]; simp
          obtain ⟨t₂, o₂, hrun, hst2⟩ :=
            ih (done ++ [n]) (tree_add_link t c n .red) o p hsplit2
              (hst.red_step hnadj hmark)
          refine ⟨t₂, o₂, ?_, by simpa using hst2⟩
          simp only [visit_neighbors]
          rw [if_pos hmark]
          simp only [htc]
          rw [if_neg hdm1]
          simp only [htn]
          rw [if_neg hdm2]
          exact hrun
    · obtain ⟨t₂, o₂, hrun, hst2⟩ :=
        ih (done ++ [n]) (tree_add_link t c n .green) (o ++ [n]) p hsplit2
          (hst.green_step hsym hnadj hmark)
      refine ⟨t₂, o₂, ?_, by simpa using hst2⟩
      simp only [visit_neighbors]
      rw [if_neg hmark]
      rw [show (p ++ c :: o) ++ [n] = p ++ c :: (o ++ [n]) from by simp]
      exact hrun

end RSTree

namespace RSTree

theorem marked_bound {M S : List Nat} (hnd : M.Nodup) (hsub : ∀ x ∈ M, x ∈ S) :
    M.length ≤ S.dedup.length :=
  (List.subperm_of_subset hnd (fun x hx => List.mem_dedup.mpr (hsub x hx))).length_le

/-- Entering the neighbor loop of a freshly dequeued node `c`. -/
theorem BState.to_vstate {net : Net} {root : Nat} {t : TreeDict} {p : List Nat}
    {c : Nat} {rest : List Nat} (hst : BState net root t p (c :: rest)) :
    VState net root c t p rest [] := by
  refine ⟨hst.nodup, hst.root_mem, hst.keys_eq, hst.sub_nodes, hst.sub_marks,
    hst.closed, ?_, ?_, ?_⟩
  · intro b hb
    simp at hb
  · intro a b hab hcond
    rcases hcond with h | h | ⟨_, h⟩ | ⟨_, h⟩
    · exact hst.class_yes a b hab (Or.inl h)
    · exact hst.class_yes a b hab (Or.inr h)
    · simp at h
    · simp at h
  · intro a b hab hncond
    exact hst.class_no a b hab (fun h => hncond (Or.inl h)) (fun h => hncond (Or.inr (Or.inl h)))

/-- Leaving the neighbor loop of `c` with all its neighbors handled:
`c` becomes processed. -/
theorem VState.to_bstate {net : Net} {root : Nat} {t : TreeDict} {p o : List Nat}
    {c : Nat} {mc : Dict Nat} (hmc : dlookup c net = some mc)
    (hsym : ∀ a b, b ∈ adj net a → a ∈ adj net b)
    (hst : VState net root c t p o (dkeys mc)) :
    BState net root t (p ++ [c]) o := by
  have hshape : (p ++ [c]) ++ o = p ++ c :: o := by simp
  refine ⟨by rw [hshape]; exact hst.nodup, by rw [hshape]; exact hst.root_mem,
    by rw [hshape]; exact hst.keys_eq, by rw [hshape]; exact hst.sub_nodes,
    by rw [hshape]; exact hst.sub_marks, ?_, ?_, ?_⟩
  · intro a ha b hb
    rw [hshape]
    rcases List.mem_append.mp ha with ha | ha
    · exact hst.closed a ha b hb
    · simp at ha
      subst ha
      rw [adj_eq hmc] at hb
      exact hst.done_marked b hb
  · intro a b hab hcond
    rcases hcond with h | h
    · rcases List.mem_append.mp h with h | h
      · exact hst.class_yes a b hab (Or.inl h)
      · simp at h
        subst h
        exact hst.class_yes a b hab (Or.inr (Or.inr (Or.inl ⟨rfl, by
          rw [← adj_eq hmc]; exact hab⟩)))
    · rcases List.mem_append.mp h with h | h
      · exact hst.class_yes a b hab (Or.inr (Or.inl h))
      · simp at h
        subst h
        exact hst.class_yes a b hab (Or.inr (Or.inr (Or.inr ⟨rfl, by
          rw [← adj_eq hmc]; exact hsym a b hab⟩)))
  · intro a b hab hna hnb
    refine hst.class_no a b hab ?_
    rintro (h | h | ⟨hac, hbd⟩ | ⟨hbc, had⟩)
    · exact hna (List.mem_append_left _ h)
    · exact hnb (List.mem_append_left _ h)
    · subst hac
      exact hna (by simp)
    · subst hbc
      exact hnb (by simp)

theorem bfs_inv (net : Net) (root : Nat)
    (hsym : ∀ a b, b ∈ adj net a → a ∈ adj net b) :
    ∀ (fuel : Nat) (t : TreeDict) (p o : List Nat),
    BState net root t p o →
    (root :: innerNodes net).dedup.length ≤ fuel + p.length →
    ∃ t₂ p₂, bfs net fuel (t, p ++ o, o) = .ok t₂ ∧ BState net root t₂ p₂ [] := by
  intro fuel
  induction fuel with
  | zero =>
    intro t p o hst hfuel
    cases o with
    | nil => exact ⟨t, p, rfl, hst⟩
    | cons c rest =>
      exfalso
      have hbound : (p ++ c :: rest).length ≤ (root :: innerNodes net).dedup.length :=
        marked_bound hst.nodup hst.sub_marks
      simp at hbound
      omega
  | succ f ihf =>
    intro t p o hst hfuel
    cases o with
    | nil => exact ⟨t, p, rfl, hst⟩
    | cons c rest =>
      have hcnode : c ∈ dkeys net := hst.sub_nodes c (by simp)
      obtain ⟨mc, hmc⟩ := lookup_of_mem_dkeys hcnode
      obtain ⟨t₂, o₂, hrun, hst2⟩ :=
        visit_inv net root hsym c mc hmc (dkeys mc) [] t rest p (by simp) hst.to_vstate
      have hbst2 : BState net root t₂ (p ++ [c]) o₂ :=
        (by simpa using hst2 : VState net root c t₂ p o₂ (dkeys mc)).to_bstate hmc hsym
      have hfuel2 : (root :: innerNodes net).dedup.length ≤ f + (p ++ [c]).length := by
        simp
        omega
      obtain ⟨t₃, p₃, hrun3, hst3⟩ := ihf t₂ (p ++ [c]) o₂ hbst2 hfuel2
      refine ⟨t₃, p₃, ?_, hst3⟩
      simp only [bfs]
      rw [find_neighbors_ok hmc]
      simp only
      rw [hrun]
      simp only
      rw [show p ++ c :: o₂ = (p ++ [c]) ++ o₂ from by simp]
      exact hrun3

end RSTree

namespace RSTree

/-- Decidable check of the spec's symmetry invariant of the data model:
every recorded neighbor relation holds in both directions. -/
def symB (net : Net) : Bool :=
  net.all fun pr => (dkeys pr.2).all fun b => decide (pr.1 ∈ adj net b)

/-- Decidable check that the network has no self-links. -/
def noSelfB (net : Net) : Bool :=
  net.all fun pr => decide (¬ pr.1 ∈ dkeys pr.2)

theorem symB_sound {net : Net} (h : symB net = true) :
    ∀ a b, b ∈ adj net a → a ∈ adj net b := by
  intro a b hb
  unfold adj at hb
  cases hm : dlookup a net with
  | none => rw [hm] at hb; simp at hb
  | some m =>
    rw [hm] at hb
    unfold symB at h
    rw [List.all_eq_true] at h
    have h2 := h (a, m) (dlookup_mem net a m hm)
    rw [List.all_eq_true] at h2
    exact of_decide_eq_true (h2 b hb)

/-- One step of neighbor closure. -/
def reachStep (net : Net) (s : List Nat) : List Nat :=
  s ++ ((s.map (adj net)).join.filter fun b => decide (¬ b ∈ s))

/-- Iterated neighbor closure. -/
def reachAux (net : Net) : Nat → List Nat → List Nat
  | 0, s => s
  | k + 1, s => reachAux net k (reachStep net s)

/-- All nodes at distance at most `node_count` from the root. -/
def reachSet (net : Net) (root : Nat) : List Nat := reachAux net net.length [root]

/-- Decidable connectivity check: every node is reachable from the root. -/
def connectedB (net : Net) (root : Nat) : Bool :=
  (dkeys net).all fun x => decide (x ∈ reachSet net root)

theorem reachAux_subset {net : Net} {M : List Nat}
    (hM : ∀ a ∈ M, ∀ b ∈ adj net a, b ∈ M) :
    ∀ (k : Nat) (s : List Nat), (∀ x ∈ s, x ∈ M) → ∀ x ∈ reachAux net k s, x ∈ M := by
  intro k
  induction k with
  | zero => intro s hs x hx; exact hs x hx
  | succ k ih =>
    intro s hs x hx
    refine ih (reachStep net s) ?_ x hx
    intro y hy
    unfold reachStep at hy
    rcases List.mem_append.mp hy with hy | hy
    · exact hs y hy
    · rw [List.mem_filter] at hy
      obtain ⟨hy1, _⟩ := hy
      rw [List.mem_join] at hy1
      obtain ⟨l, hl, hyl⟩ := hy1
      rw [List.mem_map] at hl
      obtain ⟨a, ha, rfl⟩ := hl
      exact hM a (hs a ha) y hyl

theorem find_neighbors_err {net : Net} {c : Nat} (hc : dlookup c net = none) :
    Network.find_neighbors net c = .error .notFound := by
  unfold Network.find_neighbors
  rw [hc]

theorem initial_entry_none (root : Nat) (a b : Nat) :
    entry2 ([(root, [])] : TreeDict) a b = none := by
  unfold entry2
  by_cases h : root = a
  · rw [show dlookup a [(root, [])] = some [] from by simp [dlookup, h]]
    rfl
  · rw [show dlookup a [(root, [])] = none from by simp [dlookup, h]]
    rfl

/-- The initial traversal state established by `RSTree.__init__` before
the loop. -/
theorem initial_bstate (net : Net) (root : Nat) (hroot : root ∈ dkeys net) :
    BState net root [(root, [])] [] [root] := by
  refine ⟨by simp, by simp, by simp [dkeys], ?_, by simp, ?_, ?_, ?_⟩
  · intro x hx
    simp at hx
    subst hx
    exact hroot
  · intro a ha
    simp at ha
  · intro a b hab hcond
    rcases hcond with h | h <;> simp at h
  · intro a b hab hna hnb
    exact ⟨initial_entry_none root a b, initial_entry_none root b a⟩

end RSTree

/-- C7: under the data model's symmetry invariant, constructing an
`RSTree` raises `NotFound` (a `KeyError`) iff the supplied root is not a
node of the supplied graph, and when the root is a node the construction
succeeds (so no other failure is possible). -/
theorem rstree_notfound_iff (net : Net) (root : Nat)
    (hsym : RSTree.symB net = true) :
    (RSTree.rstree net root = .error Err.notFound ↔ ¬ root ∈ Network.nodes net) ∧
    (root ∈ Network.nodes net → ∃ t, RSTree.rstree net root = .ok t) := by
  have hok : root ∈ Network.nodes net → ∃ t, RSTree.rstree net root = .ok t := by
    intro hroot
    obtain ⟨t₂, p₂, hrun, _⟩ :=
      RSTree.bfs_inv net root (RSTree.symB_sound hsym) (RSTree.bfsFuel net root)
        [(root, [])] [] [root] (RSTree.initial_bstate net root hroot)
        (by unfold RSTree.bfsFuel; omega)
    refine ⟨t₂, ?_⟩
    unfold RSTree.rstree
    simpa using hrun
  constructor
  · constructor
    · intro herr hroot
      obtain ⟨t, ht⟩ := hok hroot
      rw [ht] at herr
      exact absurd herr (by simp)
    · intro hroot
      have hnone : dlookup root net = none := by
        cases hl : dlookup root net with
        | none => rfl
        | some m =>
          exact absurd ((mem_dkeys _ _).mpr (by simp [hl])) hroot
      unfold RSTree.rstree RSTree.bfsFuel
      simp only [RSTree.bfs]
      rw [RSTree.find_neighbors_err hnone]
  · exact hok

/-- C7 witness: on the two-node network `{0: {1: 1}, 1: {0: 1}}` the
theorem applies with root `5`, which is not a node, so construction
raises `NotFound`; root `0` is a node, so construction succeeds. -/
theorem rstree_notfound_iff_witness :
    RSTree.symB [(0, [(1, 1)]), (1, [(0, 1)])] = true ∧
    (RSTree.rstree [(0, [(1, 1)]), (1, [(0, 1)])] 5 = .error Err.notFound ↔
      ¬ 5 ∈ Network.nodes [(0, [(1, 1)]), (1, [(0, 1)])]) ∧
    (5 ∈ Network.nodes [(0, [(1, 1)]), (1, [(0, 1)])] →
      ∃ t, RSTree.rstree [(0, [(1, 1)]), (1, [(0, 1)])] 5 = .ok t) :=
  ⟨by decide, rstree_notfound_iff [(0, [(1, 1)]), (1, [(0, 1)])] 5 (by decide)⟩

/-- C5: for a connected graph without self-links satisfying the symmetry
invariant, and a root that is one of its nodes, the `RSTree` build
succeeds and classifies every edge of the graph exactly once: either one
direction holds `'green'` and the other is absent (a tree edge, recorded
parent→child), or both directions hold `'red'` (a non-tree edge,
recorded symmetrically); no edge is omitted and none carries both
classifications. -/
theorem rstree_edge_classification (net : Net) (root : Nat)
    (hsym : RSTree.symB net = true) (hnoself : RSTree.noSelfB net = true)
    (hroot : root ∈ Network.nodes net) (hconn : RSTree.connectedB net root = true) :
    ∃ t, RSTree.rstree net root = .ok t ∧
      ∀ a b, b ∈ RSTree.adj net a → RSTree.classified t a b := by
  obtain ⟨t₂, p₂, hrun, hfin⟩ :=
    RSTree.bfs_inv net root (RSTree.symB_sound hsym) (RSTree.bfsFuel net root)
      [(root, [])] [] [root] (RSTree.initial_bstate net root hroot)
      (by unfold RSTree.bfsFuel; omega)
  refine ⟨t₂, by unfold RSTree.rstree; simpa using hrun, ?_⟩
  have hclosed : ∀ a ∈ p₂, ∀ b ∈ RSTree.adj net a, b ∈ p₂ := by
    intro a ha b hb
    simpa using hfin.closed a (by simpa using ha) b hb
  have hrootp : root ∈ p₂ := by simpa using hfin.root_mem
  have hkeys_sub : ∀ x ∈ dkeys net, x ∈ p₂ := by
    intro x hx
    unfold RSTree.connectedB at hconn
    rw [List.all_eq_true] at hconn
    have hx2 : x ∈ RSTree.reachSet net root := of_decide_eq_true (hconn x hx)
    exact RSTree.reachAux_subset hclosed net.length [root]
      (by intro y hy; simp at hy; subst hy; exact hrootp) x hx2
  intro a b hab
  have ha : a ∈ p₂ := hkeys_sub a (RSTree.mem_adj_imp_node hab)
  exact hfin.class_yes a b hab (Or.inl (by simpa using ha))

/-- C5 witness: the theorem applied to the triangle
`{0: {1,2}, 1: {0,2}, 2: {0,1}}` rooted at `0` (all hypotheses checked
by computation). -/
theorem rstree_edge_classification_witness :
    RSTree.symB [(0, [(1, 1), (2, 1)]), (1, [(0, 1), (2, 1)]), (2, [(0, 1), (1, 1)])] = true ∧
    RSTree.noSelfB [(0, [(1, 1), (2, 1)]), (1, [(0, 1), (2, 1)]), (2, [(0, 1), (1, 1)])] = true ∧
    0 ∈ Network.nodes [(0, [(1, 1), (2, 1)]), (1, [(0, 1), (2, 1)]), (2, [(0, 1), (1, 1)])] ∧
    RSTree.connectedB [(0, [(1, 1), (2, 1)]), (1, [(0, 1), (2, 1)]), (2, [(0, 1), (1, 1)])] 0 = true ∧
    ∃ t, RSTree.rstree [(0, [(1, 1), (2, 1)]), (1, [(0, 1), (2, 1)]), (2, [(0, 1), (1, 1)])] 0 = .ok t ∧
      ∀ a b, b ∈ RSTree.adj [(0, [(1, 1), (2, 1)]), (1, [(0, 1), (2, 1)]), (2, [(0, 1), (1, 1)])] a →
        RSTree.classified t a b :=
  ⟨by decide, by decide, by decide, by decide,
   rstree_edge_classification [(0, [(1, 1), (2, 1)]), (1, [(0, 1), (2, 1)]), (2, [(0, 1), (1, 1)])] 0
     (by decide) (by decide) (by decide) (by decide)⟩
